import Mathlib

/-
Verification of the concurrent hash table library (sequential.h, coarse_grained.h,
coarse_grained_padded.h, fine_grained.h, fine_grained_padded.h, segment_based.h,
segment_based_padded.h, lock_striped.h, agh_hash_table.h, lock_free.h) and of the
benchmark harness baseline logic (bench_matrix.cpp, bench_matrix_simple.cpp).

Every map variant stores chained buckets of key-value entries.  A single operation
holds the lock (or wins the CAS) that guards the bucket it touches, so the
single-operation semantics of each variant is a sequential function on the table
state.  The variants differ only in (a) which bucket index a key is routed to and
(b) whether a brand-new entry is appended at the back of the chain
(std::list::emplace_back, all lock-based variants) or pushed at the front
(CAS on the head pointer, lock_free.h).  We embed the chain operations and a table
record parameterized by the routing function `idx`, and separately embed the
index arithmetic, the AGH stripe selection, and the constructor-time bucket
distribution of the segmented variants.
-/

namespace CHT

variable {K V : Type} [DecidableEq K]

/-- Walk of a bucket chain as done by every `search` method: return the value of
the first entry whose key matches, none if no entry matches. -/
def bucketSearch (k : K) : List (K × V) → Option V
  | [] => none
  | kv :: rest => if kv.1 = k then some kv.2 else bucketSearch k rest

/-- Body of the lock-based `insert` methods on one chain: if the key is found,
overwrite the value of the first matching entry and report `false`; otherwise
append the new entry at the back (`emplace_back`) and report `true`. -/
def bucketInsertBack (k : K) (v : V) : List (K × V) → List (K × V) × Bool
  | [] => ([(k, v)], true)
  | kv :: rest =>
    if kv.1 = k then ((kv.1, v) :: rest, false)
    else
      let r := bucketInsertBack k v rest
      (kv :: r.1, r.2)

/-- Key-membership walk of a chain (the duplicate check of the lock-free insert). -/
def bucketContains (k : K) : List (K × V) → Bool
  | [] => false
  | kv :: rest => if kv.1 = k then true else bucketContains k rest

/-- Overwrite the value of the first entry matching the key (the
`current->value = value` branch of the lock-free insert). -/
def bucketUpdateFirst (k : K) (v : V) : List (K × V) → List (K × V)
  | [] => []
  | kv :: rest => if kv.1 = k then (kv.1, v) :: rest else kv :: bucketUpdateFirst k v rest

/-- Body of `LockFreeHashTable::insert` on one chain: walk from the head; if the
key is found overwrite that node's value and report `false`; otherwise link a new
node in front of the observed head and report `true`. -/
def bucketInsertFront (k : K) (v : V) (l : List (K × V)) : List (K × V) × Bool :=
  if bucketContains k l then (bucketUpdateFirst k v l, false) else ((k, v) :: l, true)

/-- Body of every `remove` method on one chain: erase the first entry whose key
matches and report `true`, report `false` when no entry matches. -/
def bucketRemove (k : K) : List (K × V) → List (K × V) × Bool
  | [] => ([], false)
  | kv :: rest =>
    if kv.1 = k then (rest, true)
    else
      let r := bucketRemove k rest
      (kv :: r.1, r.2)

/-- Body of `FineGrainedHashTable::increment` (identical in the padded variant) on
one chain: if the key is found, add the delta onto the stored value with `+=` and
report `false`; otherwise append a fresh entry carrying the delta and report
`true`. -/
def bucketIncrement [Add V] (k : K) (d : V) : List (K × V) → List (K × V) × Bool
  | [] => ([(k, d)], true)
  | kv :: rest =>
    if kv.1 = k then ((kv.1, kv.2 + d) :: rest, false)
    else
      let r := bucketIncrement k d rest
      (kv :: r.1, r.2)

/-- State of one hash table: the bucket vector (a function from bucket index to
chain; only indices below `bucketCount` are ever addressed) and the
`element_count` counter.  All variants share this shape. -/
structure Table (K V : Type) where
  bucketCount : Nat
  buckets : Nat → List (K × V)
  elementCount : Nat

/-- A freshly constructed table: every bucket chain empty, `element_count` zero. -/
def Table.emptyTable (K V : Type) (B : Nat) : Table K V :=
  ⟨B, fun _ => [], 0⟩

/-- Generic `insert`, parameterized by the variant's routing function `idx`
(hash composed with the variant's index arithmetic).  Appends new entries at the
back of the chain, as all lock-based variants do, and bumps `element_count`
exactly when a new entry was created. -/
def insertT (idx : K → Nat) (t : Table K V) (k : K) (v : V) : Table K V × Bool :=
  let i := idx k
  let r := bucketInsertBack k v (t.buckets i)
  (⟨t.bucketCount, Function.update t.buckets i r.1,
    if r.2 then t.elementCount + 1 else t.elementCount⟩, r.2)

/-- `LockFreeHashTable::insert`: same duplicate handling, but a new entry is
linked at the front of the chain. -/
def insertFrontT (idx : K → Nat) (t : Table K V) (k : K) (v : V) : Table K V × Bool :=
  let i := idx k
  let r := bucketInsertFront k v (t.buckets i)
  (⟨t.bucketCount, Function.update t.buckets i r.1,
    if r.2 then t.elementCount + 1 else t.elementCount⟩, r.2)

/-- Generic `search`: walk the routed bucket's chain. -/
def searchT (idx : K → Nat) (t : Table K V) (k : K) : Option V :=
  bucketSearch k (t.buckets (idx k))

/-- Generic `remove`: erase the first matching entry of the routed bucket and
decrement `element_count` exactly on success. -/
def removeT (idx : K → Nat) (t : Table K V) (k : K) : Table K V × Bool :=
  let i := idx k
  let r := bucketRemove k (t.buckets i)
  (⟨t.bucketCount, Function.update t.buckets i r.1,
    if r.2 then t.elementCount - 1 else t.elementCount⟩, r.2)

/-- `increment` of the fine-grained variants. -/
def incrementT [Add V] (idx : K → Nat) (t : Table K V) (k : K) (d : V) : Table K V × Bool :=
  let i := idx k
  let r := bucketIncrement k d (t.buckets i)
  (⟨t.bucketCount, Function.update t.buckets i r.1,
    if r.2 then t.elementCount + 1 else t.elementCount⟩, r.2)

/-- `size()`: the value of the `element_count` counter. -/
def sizeT (t : Table K V) : Nat :=
  t.elementCount

/-- The number of entries actually present in the table: total length of all
bucket chains. -/
def totalEntries (t : Table K V) : Nat :=
  ∑ i ∈ Finset.range t.bucketCount, (t.buckets i).length

/- Chain-level lemmas. -/

theorem bucketSearch_none_iff (k : K) (l : List (K × V)) :
    bucketSearch k l = none ↔ ∀ kv ∈ l, kv.1 ≠ k := by
  induction l with
  | nil => simp [bucketSearch]
  | cons kv rest ih =>
    by_cases h : kv.1 = k <;> simp [bucketSearch, h, ih]

theorem bucketContains_eq_false (k : K) (l : List (K × V)) :
    bucketContains k l = false ↔ bucketSearch k l = none := by
  induction l with
  | nil => simp [bucketContains, bucketSearch]
  | cons kv rest ih =>
    by_cases h : kv.1 = k <;> simp [bucketContains, bucketSearch, h, ih]

theorem bucketInsertBack_of_absent (k : K) (v : V) (l : List (K × V))
    (h : bucketSearch k l = none) :
    bucketInsertBack k v l = (l ++ [(k, v)], true) := by
  induction l with
  | nil => simp [bucketInsertBack]
  | cons kv rest ih =>
    rw [bucketSearch] at h
    by_cases hk : kv.1 = k
    · simp [hk] at h
    · simp only [hk, if_neg] at h
      simp [bucketInsertBack, hk, ih h]

theorem bucketSearch_append_single (k : K) (v : V) (l : List (K × V))
    (h : bucketSearch k l = none) :
    bucketSearch k (l ++ [(k, v)]) = some v := by
  induction l with
  | nil => simp [bucketSearch]
  | cons kv rest ih =>
    rw [bucketSearch] at h
    by_cases hk : kv.1 = k
    · simp [hk] at h
    · simp only [hk, if_neg] at h
      simp [bucketSearch, hk, ih h]

theorem bucketInsertBack_of_present (k : K) (v : V) (l : List (K × V)) (w : V)
    (h : bucketSearch k l = some w) :
    (bucketInsertBack k v l).2 = false ∧
      bucketSearch k (bucketInsertBack k v l).1 = some v := by
  induction l with
  | nil => simp [bucketSearch] at h
  | cons kv rest ih =>
    rw [bucketSearch] at h
    by_cases hk : kv.1 = k
    · simp [bucketInsertBack, hk, bucketSearch]
    · simp only [hk, if_neg] at h
      have := ih h
      simp [bucketInsertBack, hk, bucketSearch, this.1, this.2]

theorem bucketUpdateFirst_search (k : K) (v : V) (l : List (K × V)) (w : V)
    (h : bucketSearch k l = some w) :
    bucketSearch k (bucketUpdateFirst k v l) = some v := by
  induction l with
  | nil => simp [bucketSearch] at h
  | cons kv rest ih =>
    rw [bucketSearch] at h
    by_cases hk : kv.1 = k
    · simp [bucketUpdateFirst, hk, bucketSearch]
    · simp only [hk, if_neg] at h
      simp [bucketUpdateFirst, hk, bucketSearch, ih h]

theorem bucketInsertFront_of_absent (k : K) (v : V) (l : List (K × V))
    (h : bucketSearch k l = none) :
    bucketInsertFront k v l = ((k, v) :: l, true) := by
  have hc : bucketContains k l = false := (bucketContains_eq_false k l).2 h
  simp [bucketInsertFront, hc]

theorem bucketInsertFront_of_present (k : K) (v : V) (l : List (K × V)) (w : V)
    (h : bucketSearch k l = some w) :
    (bucketInsertFront k v l).2 = false ∧
      bucketSearch k (bucketInsertFront k v l).1 = some v := by
  have hc : ¬ bucketContains k l = false := by
    rw [bucketContains_eq_false, h]
    simp
  simp only [Bool.not_eq_false] at hc
  simp [bucketInsertFront, hc, bucketUpdateFirst_search k v l w h]

/-- Claim C1: for every map variant (all lock-based back-inserting variants and
the front-inserting lock-free variant, any routing function, any table state and
any key and values), an `insert` of an absent key stores the pair and returns
`true`, and an `insert` of a present key overwrites the stored value, returns
`false`, and a subsequent `search` yields the new value. -/
theorem insert_contract (idx : K → Nat) (t : Table K V) (k : K) (v v' : V) :
    (searchT idx t k = none →
      (insertT idx t k v).2 = true ∧ searchT idx (insertT idx t k v).1 k = some v ∧
      (insertFrontT idx t k v).2 = true ∧ searchT idx (insertFrontT idx t k v).1 k = some v) ∧
    (∀ w, searchT idx t k = some w →
      (insertT idx t k v').2 = false ∧ searchT idx (insertT idx t k v').1 k = some v' ∧
      (insertFrontT idx t k v').2 = false ∧
        searchT idx (insertFrontT idx t k v').1 k = some v') := by
  constructor
  · intro h
    unfold searchT at h
    have hb := bucketInsertBack_of_absent k v _ h
    have hf := bucketInsertFront_of_absent k v _ h
    refine ⟨by simp [insertT, hb], ?_, by simp [insertFrontT, hf], ?_⟩
    · simp [insertT, searchT, hb, bucketSearch_append_single k v _ h]
    · simp [insertFrontT, searchT, hf, bucketSearch]
  · intro w h
    unfold searchT at h
    have hb := bucketInsertBack_of_present k v' _ w h
    have hf := bucketInsertFront_of_present k v' _ w h
    refine ⟨by simp [insertT, hb.1], ?_, by simp [insertFrontT, hf.1], ?_⟩
    · simp [insertT, searchT, hb.2]
    · simp [insertFrontT, searchT, hf.2]

/-- Concrete run of the C1 contract: key 1 routed by hash mod 4 into an empty
4-bucket table, then overwritten with a second value. -/
theorem insert_contract_witness :
    ((insertT (fun n => n % 4) (Table.emptyTable Nat Nat 4) 1 5).2 = true ∧
      searchT (fun n => n % 4) (insertT (fun n => n % 4) (Table.emptyTable Nat Nat 4) 1 5).1 1 =
        some 5) ∧
    ((insertT (fun n => n % 4)
        (insertT (fun n => n % 4) (Table.emptyTable Nat Nat 4) 1 5).1 1 7).2 = false ∧
      searchT (fun n => n % 4)
        (insertT (fun n => n % 4)
          (insertT (fun n => n % 4) (Table.emptyTable Nat Nat 4) 1 5).1 1 7).1 1 = some 7) := by
  have h1 := (insert_contract (fun n => n % 4) (Table.emptyTable Nat Nat 4) 1 5 5).1 (by decide)
  have h2 := (insert_contract (fun n => n % 4)
    (insertT (fun n => n % 4) (Table.emptyTable Nat Nat 4) 1 5).1 1 7 7).2 5 (by decide)
  exact ⟨⟨h1.1, h1.2.1⟩, ⟨h2.1, h2.2.1⟩⟩

/-- Claim C3: starting from an empty table, for every routing function, key and
value: `insert` returns `true`; `search` then finds the value; `remove` returns
`true`; a subsequent `search` reports not found; and `size()` is 0.  Stated for
the back-inserting variants (Sequential et al.) and the front-inserting
lock-free variant alike. -/
theorem roundtrip_from_empty (idx : K → Nat) (B : Nat) (k : K) (v : V) :
    ((insertT idx (Table.emptyTable K V B) k v).2 = true ∧
      searchT idx (insertT idx (Table.emptyTable K V B) k v).1 k = some v ∧
      (removeT idx (insertT idx (Table.emptyTable K V B) k v).1 k).2 = true ∧
      searchT idx (removeT idx (insertT idx (Table.emptyTable K V B) k v).1 k).1 k = none ∧
      sizeT (removeT idx (insertT idx (Table.emptyTable K V B) k v).1 k).1 = 0) ∧
    ((insertFrontT idx (Table.emptyTable K V B) k v).2 = true ∧
      searchT idx (insertFrontT idx (Table.emptyTable K V B) k v).1 k = some v ∧
      (removeT idx (insertFrontT idx (Table.emptyTable K V B) k v).1 k).2 = true ∧
      searchT idx (removeT idx (insertFrontT idx (Table.emptyTable K V B) k v).1 k).1 k = none ∧
      sizeT (removeT idx (insertFrontT idx (Table.emptyTable K V B) k v).1 k).1 = 0) := by
  constructor
  · refine ⟨?_, ?_, ?_, ?_, ?_⟩ <;>
      simp [insertT, removeT, searchT, sizeT, Table.emptyTable, bucketInsertBack, bucketRemove,
        bucketSearch]
  · refine ⟨?_, ?_, ?_, ?_, ?_⟩ <;>
      simp [insertFrontT, removeT, searchT, sizeT, Table.emptyTable, bucketInsertFront,
        bucketContains, bucketRemove, bucketSearch]

/- Chain-level lemmas for `increment`. -/

theorem bucketIncrement_of_absent [Add V] (k : K) (d : V) (l : List (K × V))
    (h : bucketSearch k l = none) :
    bucketIncrement k d l = (l ++ [(k, d)], true) := by
  induction l with
  | nil => simp [bucketIncrement]
  | cons kv rest ih =>
    rw [bucketSearch] at h
    by_cases hk : kv.1 = k
    · simp [hk] at h
    · simp only [hk, if_neg] at h
      simp [bucketIncrement, hk, ih h]

theorem bucketIncrement_of_present [Add V] (k : K) (d : V) (l : List (K × V)) (w : V)
    (h : bucketSearch k l = some w) :
    (bucketIncrement k d l).2 = false ∧
      bucketSearch k (bucketIncrement k d l).1 = some (w + d) := by
  induction l with
  | nil => simp [bucketSearch] at h
  | cons kv rest ih =>
    rw [bucketSearch] at h
    by_cases hk : kv.1 = k
    · simp only [hk, if_pos, Option.some.injEq] at h
      subst h
      simp [bucketIncrement, hk, bucketSearch]
    · simp only [hk, if_neg] at h
      have := ih h
      simp [bucketIncrement, hk, bucketSearch, this.1, this.2]

/-- Claim C9: `increment(k, d)` of the fine-grained maps returns `true` exactly
when the key was absent, in which case it stores the entry `(k, d)` and bumps
`size()` by one; when the key was present it adds `d` onto the stored value and
returns `false`, leaving `size()` unchanged. -/
theorem increment_contract [Add V] (idx : K → Nat) (t : Table K V) (k : K) (d : V) :
    (searchT idx t k = none →
      (incrementT idx t k d).2 = true ∧
      searchT idx (incrementT idx t k d).1 k = some d ∧
      sizeT (incrementT idx t k d).1 = sizeT t + 1) ∧
    (∀ w, searchT idx t k = some w →
      (incrementT idx t k d).2 = false ∧
      searchT idx (incrementT idx t k d).1 k = some (w + d) ∧
      sizeT (incrementT idx t k d).1 = sizeT t) := by
  constructor
  · intro h
    unfold searchT at h
    have hi := bucketIncrement_of_absent k d _ h
    refine ⟨by simp [incrementT, hi], ?_, by simp [incrementT, sizeT, hi]⟩
    simp [incrementT, searchT, hi, bucketSearch_append_single k d _ h]
  · intro w h
    unfold searchT at h
    have hi := bucketIncrement_of_present k d _ w h
    refine ⟨by simp [incrementT, hi.1], ?_, by simp [incrementT, sizeT, hi.1]⟩
    simp [incrementT, searchT, hi.2]

/-- Concrete run of the C9 contract: increment an absent key 3 by 5 in an empty
8-bucket table, then increment it again by 2. -/
theorem increment_contract_witness :
    ((incrementT (fun n => n % 8) (Table.emptyTable Nat Nat 8) 3 5).2 = true ∧
      searchT (fun n => n % 8) (incrementT (fun n => n % 8) (Table.emptyTable Nat Nat 8) 3 5).1 3 =
        some 5 ∧
      sizeT (incrementT (fun n => n % 8) (Table.emptyTable Nat Nat 8) 3 5).1 = 1) ∧
    ((incrementT (fun n => n % 8)
        (incrementT (fun n => n % 8) (Table.emptyTable Nat Nat 8) 3 5).1 3 2).2 = false ∧
      searchT (fun n => n % 8)
        (incrementT (fun n => n % 8)
          (incrementT (fun n => n % 8) (Table.emptyTable Nat Nat 8) 3 5).1 3 2).1 3 = some 7 ∧
      sizeT (incrementT (fun n => n % 8)
        (incrementT (fun n => n % 8) (Table.emptyTable Nat Nat 8) 3 5).1 3 2).1 = 1) := by
  have h1 := (increment_contract (fun n => n % 8) (Table.emptyTable Nat Nat 8) 3 5).1 (by decide)
  have h2 := (increment_contract (fun n => n % 8)
    (incrementT (fun n => n % 8) (Table.emptyTable Nat Nat 8) 3 5).1 3 2).2 5 (by decide)
  exact ⟨⟨h1.1, h1.2.1, h1.2.2⟩, ⟨h2.1, h2.2.1, h2.2.2⟩⟩

/- Machinery for the size-counter invariant: an operation language covering the
mutating methods of all variants, and the entry count actually present. -/

/-- One mutating call: a back-inserting `insert` (all lock-based variants), a
front-inserting `insert` (lock-free variant), or a `remove`. -/
inductive Op (K V : Type) where
  | insB : K → V → Op K V
  | insF : K → V → Op K V
  | rem : K → Op K V

/-- Apply one call to the table state. -/
def applyOp (idx : K → Nat) (t : Table K V) : Op K V → Table K V
  | Op.insB k v => (insertT idx t k v).1
  | Op.insF k v => (insertFrontT idx t k v).1
  | Op.rem k => (removeT idx t k).1

/-- Run a sequence of calls left to right. -/
def runOps (idx : K → Nat) : Table K V → List (Op K V) → Table K V
  | t, [] => t
  | t, op :: ops => runOps idx (applyOp idx t op) ops

theorem bucketInsertBack_length (k : K) (v : V) (l : List (K × V)) :
    (bucketInsertBack k v l).1.length =
      if (bucketInsertBack k v l).2 then l.length + 1 else l.length := by
  induction l with
  | nil => simp [bucketInsertBack]
  | cons kv rest ih =>
    by_cases hk : kv.1 = k
    · simp [bucketInsertBack, hk]
    · simp only [bucketInsertBack, hk, if_neg, not_false_iff, List.length_cons]
      rw [ih]
      by_cases hb : (bucketInsertBack k v rest).2 <;> simp [hb]

theorem bucketUpdateFirst_length (k : K) (v : V) (l : List (K × V)) :
    (bucketUpdateFirst k v l).length = l.length := by
  induction l with
  | nil => simp [bucketUpdateFirst]
  | cons kv rest ih =>
    by_cases hk : kv.1 = k <;> simp [bucketUpdateFirst, hk, ih]

theorem bucketInsertFront_length (k : K) (v : V) (l : List (K × V)) :
    (bucketInsertFront k v l).1.length =
      if (bucketInsertFront k v l).2 then l.length + 1 else l.length := by
  by_cases hc : bucketContains k l <;>
    simp [bucketInsertFront, hc, bucketUpdateFirst_length]

theorem bucketRemove_length (k : K) (l : List (K × V)) :
    (bucketRemove k l).1.length + (if (bucketRemove k l).2 then 1 else 0) = l.length := by
  induction l with
  | nil => simp [bucketRemove]
  | cons kv rest ih =>
    by_cases hk : kv.1 = k
    · simp [bucketRemove, hk]
    · simp only [bucketRemove, hk, if_neg, not_false_iff, List.length_cons]
      omega

/-- Rewriting the present-entry count after one bucket is overwritten. -/
theorem totalEntries_update (t : Table K V) (i : Nat) (hi : i < t.bucketCount)
    (b : List (K × V)) (c : Nat) :
    totalEntries ⟨t.bucketCount, Function.update t.buckets i b, c⟩ + (t.buckets i).length =
      totalEntries t + b.length := by
  have hmem : i ∈ Finset.range t.bucketCount := Finset.mem_range.2 hi
  have h1 : totalEntries ⟨t.bucketCount, Function.update t.buckets i b, c⟩ =
      b.length + ∑ j ∈ Finset.range t.bucketCount \ {i}, (t.buckets j).length := by
    unfold totalEntries
    rw [show (fun j => ((Function.update t.buckets i b) j).length) =
        Function.update (fun j => (t.buckets j).length) i b.length from ?_]
    · exact Finset.sum_update_of_mem hmem _ _
    · funext j
      by_cases hj : j = i
      · subst hj; simp
      · simp [Function.update, hj]
  have h2 : totalEntries t =
      (∑ j ∈ Finset.range t.bucketCount \ {i}, (t.buckets j).length) + (t.buckets i).length :=
    Finset.sum_eq_sum_diff_singleton_add hmem _
  omega

/-- One mutating call keeps `size() = number of entries present`, provided the
routing function stays inside the bucket vector. -/
theorem applyOp_size_invariant (idx : K → Nat) (t : Table K V)
    (hidx : ∀ k, idx k < t.bucketCount) (op : Op K V)
    (h : sizeT t = totalEntries t) :
    sizeT (applyOp idx t op) = totalEntries (applyOp idx t op) := by
  cases op with
  | insB k v =>
    have hlen := bucketInsertBack_length k v (t.buckets (idx k))
    have hupd := totalEntries_update t (idx k) (hidx k) (bucketInsertBack k v (t.buckets (idx k))).1
      (if (bucketInsertBack k v (t.buckets (idx k))).2 then t.elementCount + 1
        else t.elementCount)
    simp only [applyOp, insertT, sizeT] at *
    by_cases hb : (bucketInsertBack k v (t.buckets (idx k))).2 <;>
      simp only [hb, if_true, if_false, Bool.false_eq_true] at * <;> omega
  | insF k v =>
    have hlen := bucketInsertFront_length k v (t.buckets (idx k))
    have hupd := totalEntries_update t (idx k) (hidx k) (bucketInsertFront k v (t.buckets (idx k))).1
      (if (bucketInsertFront k v (t.buckets (idx k))).2 then t.elementCount + 1
        else t.elementCount)
    simp only [applyOp, insertFrontT, sizeT] at *
    by_cases hb : (bucketInsertFront k v (t.buckets (idx k))).2 <;>
      simp only [hb, if_true, if_false, Bool.false_eq_true] at * <;> omega
  | rem k =>
    have hlen := bucketRemove_length k (t.buckets (idx k))
    have hupd := totalEntries_update t (idx k) (hidx k) (bucketRemove k (t.buckets (idx k))).1
      (if (bucketRemove k (t.buckets (idx k))).2 then t.elementCount - 1 else t.elementCount)
    have hge : (t.buckets (idx k)).length ≤ totalEntries t := by
      have hmem : idx k ∈ Finset.range t.bucketCount := Finset.mem_range.2 (hidx k)
      unfold totalEntries
      exact Finset.single_le_sum (f := fun j => (t.buckets j).length) (fun j _ => Nat.zero_le _) hmem
    simp only [applyOp, removeT, sizeT] at *
    by_cases hb : (bucketRemove k (t.buckets (idx k))).2 <;>
      simp only [hb, if_true, if_false, Bool.false_eq_true] at * <;> omega

theorem applyOp_bucketCount (idx : K → Nat) (t : Table K V) (op : Op K V) :
    (applyOp idx t op).bucketCount = t.bucketCount := by
  cases op <;> rfl

theorem runOps_bucketCount (idx : K → Nat) (t : Table K V) (ops : List (Op K V)) :
    (runOps idx t ops).bucketCount = t.bucketCount := by
  induction ops generalizing t with
  | nil => rfl
  | cons op ops ih => rw [runOps, ih, applyOp_bucketCount]

theorem runOps_size_invariant (idx : K → Nat) (t : Table K V)
    (hidx : ∀ k, idx k < t.bucketCount) (ops : List (Op K V))
    (h : sizeT t = totalEntries t) :
    sizeT (runOps idx t ops) = totalEntries (runOps idx t ops) := by
  induction ops generalizing t with
  | nil => exact h
  | cons op ops ih =>
    rw [runOps]
    exact ih _ (fun k => (applyOp_bucketCount idx t op).symm ▸ hidx k)
      (applyOp_size_invariant idx t hidx op h)

/-- Claim C2: for every variant (any routing function bounded by the bucket
count, with back- or front-inserting `insert`) and every sequence of mutating
calls from a fresh table, `size()` equals the number of entries currently
present; moreover on any table so reached, an `insert` that returns `true`
increments `size()` by exactly one, an `insert` that returns `false` (an
update-in-place) leaves it unchanged, and a `remove` that returns `true`
decrements it by exactly one. -/
theorem size_counter (idx : K → Nat) (B : Nat) (hidx : ∀ k, idx k < B)
    (ops : List (Op K V)) :
    (sizeT (runOps idx (Table.emptyTable K V B) ops) =
      totalEntries (runOps idx (Table.emptyTable K V B) ops)) ∧
    (∀ k v,
      ((insertT idx (runOps idx (Table.emptyTable K V B) ops) k v).2 = true →
        sizeT (insertT idx (runOps idx (Table.emptyTable K V B) ops) k v).1 =
          sizeT (runOps idx (Table.emptyTable K V B) ops) + 1) ∧
      ((insertT idx (runOps idx (Table.emptyTable K V B) ops) k v).2 = false →
        sizeT (insertT idx (runOps idx (Table.emptyTable K V B) ops) k v).1 =
          sizeT (runOps idx (Table.emptyTable K V B) ops)) ∧
      ((insertFrontT idx (runOps idx (Table.emptyTable K V B) ops) k v).2 = true →
        sizeT (insertFrontT idx (runOps idx (Table.emptyTable K V B) ops) k v).1 =
          sizeT (runOps idx (Table.emptyTable K V B) ops) + 1) ∧
      ((insertFrontT idx (runOps idx (Table.emptyTable K V B) ops) k v).2 = false →
        sizeT (insertFrontT idx (runOps idx (Table.emptyTable K V B) ops) k v).1 =
          sizeT (runOps idx (Table.emptyTable K V B) ops)) ∧
      ((removeT idx (runOps idx (Table.emptyTable K V B) ops) k).2 = true →
        sizeT (removeT idx (runOps idx (Table.emptyTable K V B) ops) k).1 + 1 =
          sizeT (runOps idx (Table.emptyTable K V B) ops)) ∧
      ((removeT idx (runOps idx (Table.emptyTable K V B) ops) k).2 = false →
        sizeT (removeT idx (runOps idx (Table.emptyTable K V B) ops) k).1 =
          sizeT (runOps idx (Table.emptyTable K V B) ops))) := by
  have hB : (Table.emptyTable K V B).bucketCount = B := rfl
  have hinv : sizeT (runOps idx (Table.emptyTable K V B) ops) =
      totalEntries (runOps idx (Table.emptyTable K V B) ops) := by
    refine runOps_size_invariant idx _ (fun k => hB ▸ hidx k) ops ?_
    simp [sizeT, totalEntries, Table.emptyTable]
  refine ⟨hinv, fun k v => ?_⟩
  set t := runOps idx (Table.emptyTable K V B) ops with ht
  have htB : t.bucketCount = B := by rw [ht, runOps_bucketCount]; exact hB
  refine ⟨?_, ?_, ?_, ?_, ?_, ?_⟩
  · intro h; simp only [insertT] at h; simp [insertT, sizeT, h]
  · intro h; simp only [insertT] at h; simp [insertT, sizeT, h]
  · intro h; simp only [insertFrontT] at h; simp [insertFrontT, sizeT, h]
  · intro h; simp only [insertFrontT] at h; simp [insertFrontT, sizeT, h]
  · intro h
    simp only [removeT] at h
    have hlen := bucketRemove_length k (t.buckets (idx k))
    rw [h] at hlen
    simp only [if_true] at hlen
    have hge : (t.buckets (idx k)).length ≤ totalEntries t := by
      have hmem : idx k ∈ Finset.range t.bucketCount := Finset.mem_range.2 (htB ▸ hidx k)
      unfold totalEntries
      exact Finset.single_le_sum (f := fun j => (t.buckets j).length) (fun j _ => Nat.zero_le _) hmem
    have hsz : sizeT t = totalEntries t := hinv
    simp only [sizeT] at hsz
    simp only [removeT, sizeT, h, if_true]
    omega
  · intro h; simp only [removeT] at h; simp [removeT, sizeT, h]

/-- Concrete run of the C2 invariant: three inserts (one a duplicate) and one
remove, routed by hash mod 4 into a fresh 4-bucket table, leave `size()` equal
to the number of entries present, and the delta facts hold at that state. -/
theorem size_counter_witness :
    (sizeT (runOps (fun n => n % 4) (Table.emptyTable Nat Nat 4)
        [Op.insB 1 10, Op.insF 5 20, Op.insB 1 30, Op.rem 5]) =
      totalEntries (runOps (fun n => n % 4) (Table.emptyTable Nat Nat 4)
        [Op.insB 1 10, Op.insF 5 20, Op.insB 1 30, Op.rem 5])) ∧
    ((removeT (fun n => n % 4) (runOps (fun n => n % 4) (Table.emptyTable Nat Nat 4)
        [Op.insB 1 10, Op.insF 5 20, Op.insB 1 30, Op.rem 5]) 1).2 = true →
      sizeT (removeT (fun n => n % 4) (runOps (fun n => n % 4) (Table.emptyTable Nat Nat 4)
        [Op.insB 1 10, Op.insF 5 20, Op.insB 1 30, Op.rem 5]) 1).1 + 1 =
        sizeT (runOps (fun n => n % 4) (Table.emptyTable Nat Nat 4)
          [Op.insB 1 10, Op.insF 5 20, Op.insB 1 30, Op.rem 5])) := by
  have h := size_counter (K := Nat) (V := Nat) (fun n => n % 4) 4
    (fun k => Nat.mod_lt k (by decide)) [Op.insB 1 10, Op.insF 5 20, Op.insB 1 30, Op.rem 5]
  exact ⟨h.1, ((h.2 1 10).2.2.2.2).1⟩

/- Index arithmetic of the segment-partitioned variants. -/

/-- `SegmentBasedHashTable::NUM_SEGMENTS` and
`SegmentBasedHashTablePadded::NUM_SEGMENTS`. -/
def SB_NUM_SEGMENTS : Nat := 16

/-- Segment selection of `SegmentBasedHashTable` (computed inline in
insert/search/remove): `hash_val % NUM_SEGMENTS`. -/
def sbSegIdx (h : Nat) : Nat := h % SB_NUM_SEGMENTS

/-- Bucket-within-segment selection of `SegmentBasedHashTable` (computed inline
in insert/search/remove): `(hash_val >> 4) % buckets_per_segment`. -/
def sbBucketIdx (h bps : Nat) : Nat := (h >>> 4) % bps

/-- `SegmentBasedHashTablePadded::getSegmentIndex`: `hash % NUM_SEGMENTS`. -/
def sbpGetSegmentIndex (h : Nat) : Nat := h % SB_NUM_SEGMENTS

/-- `SegmentBasedHashTablePadded::getBucketIndex`: the raw hash modulo
buckets-per-segment (no shift or division by the segment count). -/
def sbpGetBucketIndex (h bps : Nat) : Nat := h % bps

/-- `AGHHashTable::NUM_SEGMENTS = AGH_DEFAULT_SEGMENTS` (default build). -/
def AGH_NUM_SEGMENTS : Nat := 128

/-- `AGHHashTable::seg_index`. -/
def agh_seg_index (h : Nat) : Nat := h % AGH_NUM_SEGMENTS

/-- `AGHHashTable::bucket_index`. -/
def agh_bucket_index (h bps : Nat) : Nat := (h / AGH_NUM_SEGMENTS) % bps

/-- Claim C4, counterexample: the claim asserts that in every segment-partitioned
variant the bucket-within-segment index is `(h / S) % bps`.
`SegmentBasedHashTablePadded` violates this: with bucket hint 48 its
buckets-per-segment is 3, and for hash 1 its `getBucketIndex` yields `1 % 3 = 1`
while `(1 / 16) % 3 = 0`. -/
theorem bucket_bits_counterexample :
    48 / SB_NUM_SEGMENTS = 3 ∧ sbpGetBucketIndex 1 3 = 1 ∧ (1 / SB_NUM_SEGMENTS) % 3 = 0 ∧
    ¬ sbpGetBucketIndex 1 3 = (1 / SB_NUM_SEGMENTS) % 3 := by decide

/-- Claim C4, amended: `SegmentBasedHashTable` and `AGHHashTable` take the
segment index from the low bits (`h mod S`) and the bucket-within-segment index
from the higher bits (`(h / S) mod bps`); `SegmentBasedHashTablePadded`,
however, computes the bucket index as `h mod bps`, from the same low bits as its
segment index. -/
theorem bucket_bits (h bps : Nat) :
    sbSegIdx h = h % 16 ∧ sbBucketIdx h bps = (h / 16) % bps ∧
    agh_seg_index h = h % 128 ∧ agh_bucket_index h bps = (h / 128) % bps ∧
    sbpGetSegmentIndex h = h % 16 ∧ sbpGetBucketIndex h bps = h % bps := by
  refine ⟨rfl, ?_, rfl, rfl, rfl, rfl⟩
  unfold sbBucketIdx
  rw [Nat.shiftRight_eq_div_pow]

/- The AGH stripe machinery (agh_hash_table.h). -/

/-- `AGH_MAX_STRIPES` (default build). -/
def AGH_MAX_STRIPES : Nat := 32

/-- `AGH_STRIPE_FACTOR` (default build). -/
def AGH_STRIPE_FACTOR : Nat := 2

/-- `AGHHashTable::next_pow2`: the 64-bit bit-smearing round-up to a power of
two.  Sequential `x |= x >> k` statements become a chain of let bindings. -/
def next_pow2 (x : Nat) : Nat :=
  if x ≤ 1 then 1
  else
    let y := x - 1
    let y := y ||| (y >>> 1)
    let y := y ||| (y >>> 2)
    let y := y ||| (y >>> 4)
    let y := y ||| (y >>> 8)
    let y := y ||| (y >>> 16)
    let y := y ||| (y >>> 32)
    y + 1

/-- The `while (k > buckets_per_segment && k > 1) k >>= 1;` loop of
`choose_stripes`. -/
def halveLoop (bps : Nat) (k : Nat) : Nat :=
  if h : bps < k ∧ 1 < k then halveLoop bps (k / 2) else k
termination_by k
decreasing_by exact Nat.div_lt_self (by omega) (by omega)

/-- `AGHHashTable::choose_stripes`. -/
def choose_stripes (buckets_per_segment expected_threads : Nat) : Nat :=
  let target := expected_threads / AGH_STRIPE_FACTOR
  let k1 := next_pow2 target
  let k2 := if k1 > AGH_MAX_STRIPES then AGH_MAX_STRIPES else k1
  let k3 := if k2 < 1 then 1 else k2
  let k4 := halveLoop buckets_per_segment k3
  if k4 = 0 then 1 else k4

/-- The stripe count as the specification words it: next_power_of_two(T /
STRIPE_FACTOR), clamped to at most MAX_STRIPES and at least 1, then halved while
it exceeds the segment's bucket count (remaining a power of two, so the halving
stops at 1). -/
def claimStripeCount (bps T : Nat) : Nat :=
  halveLoop bps (max (min (next_pow2 (T / AGH_STRIPE_FACTOR)) AGH_MAX_STRIPES) 1)

/-- The stripe selection expression of `AGHHashTable::insert`, `search` and
`remove`: `(s->stripe_count > 1) ? (bi & s->stripe_mask) : 0` with
`stripe_mask = stripe_count - 1`. -/
def aghStripe (stripe_count bi : Nat) : Nat :=
  if 1 < stripe_count then bi &&& (stripe_count - 1) else 0

theorem self_le_lor (a : Nat) : ∀ b, a ≤ a ||| b := by
  induction a using Nat.binaryRec with
  | z => exact fun b => Nat.zero_le _
  | f abit a ih =>
    intro b
    induction b using Nat.bitCasesOn with
    | h bbit b =>
      rw [Nat.lor_bit]
      have h1 : a ≤ a ||| b := ih b
      cases abit <;> cases bbit <;> simp [Nat.bit_val] <;> omega

theorem next_pow2_ge (x : Nat) : x ≤ next_pow2 x := by
  rw [next_pow2]
  split
  · omega
  · simp only []
    have h1 := self_le_lor (x - 1) ((x - 1) >>> 1)
    have h2 := self_le_lor ((x - 1) ||| ((x - 1) >>> 1))
      (((x - 1) ||| ((x - 1) >>> 1)) >>> 2)
    generalize ((x - 1) ||| ((x - 1) >>> 1)) ||| (((x - 1) ||| ((x - 1) >>> 1)) >>> 2) = t2 at *
    have h3 := self_le_lor t2 (t2 >>> 4)
    generalize t2 ||| (t2 >>> 4) = t3 at *
    have h4 := self_le_lor t3 (t3 >>> 8)
    generalize t3 ||| (t3 >>> 8) = t4 at *
    have h5 := self_le_lor t4 (t4 >>> 16)
    generalize t4 ||| (t4 >>> 16) = t5 at *
    have h6 := self_le_lor t5 (t5 >>> 32)
    omega

theorem next_pow2_small : ∀ x < 33, next_pow2 x = 1 ∨ next_pow2 x = 2 ∨ next_pow2 x = 4 ∨
    next_pow2 x = 8 ∨ next_pow2 x = 16 ∨ next_pow2 x = 32 := by decide

theorem next_pow2_pos (x : Nat) : 1 ≤ next_pow2 x := by
  rw [next_pow2]
  split
  · omega
  · simp only []
    omega

theorem halveLoop_pos (bps : Nat) : ∀ k, 0 < k → 0 < halveLoop bps k := by
  intro k
  induction k using Nat.strong_induction_on with
  | _ k ih =>
    intro hk
    rw [halveLoop]
    split
    · next h => exact ih (k / 2) (Nat.div_lt_self hk (by omega)) (by omega)
    · exact hk

theorem halveLoop_pow2 (bps : Nat) :
    ∀ k, (∃ e, k = 2 ^ e) → ∃ e, halveLoop bps k = 2 ^ e := by
  intro k
  induction k using Nat.strong_induction_on with
  | _ k ih =>
    rintro ⟨e, rfl⟩
    rw [halveLoop]
    split
    · next h =>
      have he : e ≠ 0 := by
        rintro rfl
        simp at h
      have hdiv : (2 : Nat) ^ e / 2 = 2 ^ (e - 1) := by
        cases e with
        | zero => exact absurd rfl he
        | succ m => rw [pow_succ, Nat.mul_div_cancel _ (by omega)]; simp
      rw [hdiv]
      exact ih _ (by rw [← hdiv]; exact Nat.div_lt_self (Nat.pos_pow_of_pos e (by omega)) (by omega))
        ⟨e - 1, rfl⟩
    · exact ⟨e, rfl⟩

theorem clamp_pow2 (x : Nat) :
    ∃ e, (if next_pow2 x > AGH_MAX_STRIPES then AGH_MAX_STRIPES else next_pow2 x) = 2 ^ e := by
  by_cases h : next_pow2 x > AGH_MAX_STRIPES
  · exact ⟨5, by simp [h]; rfl⟩
  · simp only [h, if_neg, not_false_iff]
    have hx : x ≤ 32 := by
      by_contra hx
      have := next_pow2_ge x
      simp [AGH_MAX_STRIPES] at h
      omega
    have := next_pow2_small x (by omega)
    rcases this with h1 | h1 | h1 | h1 | h1 | h1
    · exact ⟨0, by rw [h1]; decide⟩
    · exact ⟨1, by rw [h1]; decide⟩
    · exact ⟨2, by rw [h1]; decide⟩
    · exact ⟨3, by rw [h1]; decide⟩
    · exact ⟨4, by rw [h1]; decide⟩
    · exact ⟨5, by rw [h1]; decide⟩

theorem choose_stripes_eq_claim (bps T : Nat) :
    choose_stripes bps T = claimStripeCount bps T := by
  simp only [choose_stripes, claimStripeCount]
  have hpos := next_pow2_pos (T / AGH_STRIPE_FACTOR)
  generalize next_pow2 (T / AGH_STRIPE_FACTOR) = n at hpos ⊢
  unfold AGH_MAX_STRIPES
  have harg : (if (if n > 32 then 32 else n) < 1 then 1 else if n > 32 then 32 else n) =
      max (min n 32) 1 := by
    split_ifs <;> omega
  rw [harg]
  have hk4 : 0 < halveLoop bps (max (min n 32) 1) := halveLoop_pos bps _ (by omega)
  rw [if_neg (by omega : ¬ halveLoop bps (max (min n 32) 1) = 0)]

theorem choose_stripes_pow2 (bps T : Nat) : ∃ e, choose_stripes bps T = 2 ^ e := by
  simp only [choose_stripes]
  obtain ⟨e, he⟩ := clamp_pow2 (T / AGH_STRIPE_FACTOR)
  rw [he]
  rw [if_neg (by have := Nat.one_le_two_pow (n := e); omega : ¬ (2 : Nat) ^ e < 1)]
  obtain ⟨f, hf⟩ := halveLoop_pow2 bps ((2 : Nat) ^ e) ⟨e, rfl⟩
  have hk4 : 0 < halveLoop bps ((2 : Nat) ^ e) := by
    rw [hf]; exact Nat.pos_pow_of_pos f (by omega)
  rw [if_neg (by omega : ¬ halveLoop bps ((2 : Nat) ^ e) = 0)]
  exact ⟨f, hf⟩

theorem aghStripe_eq_and (bps T bi : Nat) :
    aghStripe (choose_stripes bps T) bi = bi &&& (choose_stripes bps T - 1) := by
  obtain ⟨e, he⟩ := choose_stripes_pow2 bps T
  unfold aghStripe
  split
  · rfl
  · next h =>
    have h1 : choose_stripes bps T = 1 := by
      have := Nat.one_le_two_pow (n := e)
      omega
    rw [h1]
    simp

/- The AGH table state (agh_hash_table.h). -/

/-- One `AGHHashTable::Segment`: its bucket count, its stripe count (a power of
two chosen at construction) and its bucket chains. -/
structure AGHSeg (K V : Type) where
  bps : Nat
  stripeCount : Nat
  buckets : Nat → List (K × V)

/-- `AGHHashTable` state: the 128 segments, the remembered
`requested_bucket_count` and the `element_count` counter. -/
structure AGHTable (K V : Type) where
  segments : Nat → AGHSeg K V
  requestedBucketCount : Nat
  elementCount : Nat

/-- The exact bucket distribution of the AGH constructor:
`bps = base + (i < rem ? 1 : 0)` with `base = B / NUM_SEGMENTS` and
`rem = B % NUM_SEGMENTS`. -/
def aghSegBps (B i : Nat) : Nat :=
  B / AGH_NUM_SEGMENTS + (if i < B % AGH_NUM_SEGMENTS then 1 else 0)

/-- The AGH constructor with bucket hint `B` and resolved expected thread count
`T`: each of the 128 segments gets its exact bucket share and
`choose_stripes(bps, T)` stripes. -/
def AGHTable.new (K V : Type) (B T : Nat) : AGHTable K V :=
  ⟨fun i => ⟨aghSegBps B i, choose_stripes (aghSegBps B i) T, fun _ => []⟩, B, 0⟩

/-- `AGHHashTable::effective_bucket_count`: returns the remembered request. -/
def effective_bucket_count (t : AGHTable K V) : Nat :=
  t.requestedBucketCount

/-- The number of buckets actually allocated over all 128 segments. -/
def aghTotalBuckets (t : AGHTable K V) : Nat :=
  ∑ i ∈ Finset.range AGH_NUM_SEGMENTS, (t.segments i).bps

/-- `AGHHashTable::insert` for a hash function `hf`: route to segment
`seg_index(h)`, bucket `bucket_index(h, bps)`, then the usual chain insert under
the stripe lock `aghStripe`. -/
def aghInsert (hf : K → Nat) (t : AGHTable K V) (k : K) (v : V) : AGHTable K V × Bool :=
  let si := agh_seg_index (hf k)
  let s := t.segments si
  let bi := agh_bucket_index (hf k) s.bps
  let r := bucketInsertBack k v (s.buckets bi)
  (⟨Function.update t.segments si ⟨s.bps, s.stripeCount, Function.update s.buckets bi r.1⟩,
    t.requestedBucketCount,
    if r.2 then t.elementCount + 1 else t.elementCount⟩, r.2)

/-- `AGHHashTable::remove` for a hash function `hf`. -/
def aghRemove (hf : K → Nat) (t : AGHTable K V) (k : K) : AGHTable K V × Bool :=
  let si := agh_seg_index (hf k)
  let s := t.segments si
  let bi := agh_bucket_index (hf k) s.bps
  let r := bucketRemove k (s.buckets bi)
  (⟨Function.update t.segments si ⟨s.bps, s.stripeCount, Function.update s.buckets bi r.1⟩,
    t.requestedBucketCount,
    if r.2 then t.elementCount - 1 else t.elementCount⟩, r.2)

theorem aghInsert_stripeCount (hf : K → Nat) (t : AGHTable K V) (k : K) (v : V) (i : Nat) :
    ((aghInsert hf t k v).1.segments i).stripeCount = (t.segments i).stripeCount := by
  simp only [aghInsert]
  by_cases hi : i = agh_seg_index (hf k)
  · subst hi; rw [Function.update_same]
  · rw [Function.update_noteq hi]

theorem aghRemove_stripeCount (hf : K → Nat) (t : AGHTable K V) (k : K) (i : Nat) :
    ((aghRemove hf t k).1.segments i).stripeCount = (t.segments i).stripeCount := by
  simp only [aghRemove]
  by_cases hi : i = agh_seg_index (hf k)
  · subst hi; rw [Function.update_same]
  · rw [Function.update_noteq hi]

/-- Claim C5: in an AGH map built with expected thread count `T`, every
segment's stripe count equals `next_pow2(T / STRIPE_FACTOR)` clamped to
`[1, MAX_STRIPES]` and then halved while it exceeds the segment's bucket count
(stopping at 1, so it remains a power of two); the stripe guarding bucket `bi`
is `bi AND (K - 1)` (also when `K = 1`, where the `stripe_count > 1` shortcut
yields stripe 0 = `bi AND 0`); and `K` is never changed by `insert` or
`remove`. -/
theorem agh_stripe_policy (K V : Type) [DecidableEq K] (hf : K → Nat)
    (B T bps bi i : Nat) (t : AGHTable K V) (k : K) (v : V) :
    choose_stripes bps T = claimStripeCount bps T ∧
    (∃ e, choose_stripes bps T = 2 ^ e) ∧
    ((AGHTable.new K V B T).segments i).stripeCount = choose_stripes (aghSegBps B i) T ∧
    aghStripe (((AGHTable.new K V B T).segments i).stripeCount) bi =
      bi &&& (((AGHTable.new K V B T).segments i).stripeCount - 1) ∧
    ((aghInsert hf t k v).1.segments i).stripeCount = (t.segments i).stripeCount ∧
    ((aghRemove hf t k).1.segments i).stripeCount = (t.segments i).stripeCount :=
  ⟨choose_stripes_eq_claim bps T, choose_stripes_pow2 bps T, rfl,
    aghStripe_eq_and (aghSegBps B i) T bi,
    aghInsert_stripeCount hf t k v i, aghRemove_stripeCount hf t k i⟩

theorem sum_ite_lt (S r : Nat) :
    ∑ i ∈ Finset.range S, (if i < r then 1 else 0) = min r S := by
  induction S with
  | zero => simp
  | succ S ih =>
    rw [Finset.sum_range_succ, ih]
    split <;> omega

/-- Claim C6: the AGH constructor with bucket hint `B` gives each of the 128
segments either `⌊B/128⌋` or `⌈B/128⌉` buckets — the first `B mod 128` segments
get the extra one — the allocated buckets over all segments sum to exactly `B`,
and `effective_bucket_count()` returns `B`. -/
theorem agh_exact_distribution (K V : Type) (B T : Nat) :
    (∀ i, i < AGH_NUM_SEGMENTS →
      ((AGHTable.new K V B T).segments i).bps =
        (if i < B % AGH_NUM_SEGMENTS then B / AGH_NUM_SEGMENTS + 1
          else B / AGH_NUM_SEGMENTS)) ∧
    (∀ i, i < AGH_NUM_SEGMENTS →
      ((AGHTable.new K V B T).segments i).bps = B / AGH_NUM_SEGMENTS ∨
      ((AGHTable.new K V B T).segments i).bps =
        (B + (AGH_NUM_SEGMENTS - 1)) / AGH_NUM_SEGMENTS) ∧
    aghTotalBuckets (AGHTable.new K V B T) = B ∧
    effective_bucket_count (AGHTable.new K V B T) = B := by
  refine ⟨?_, ?_, ?_, rfl⟩
  · intro i _
    show aghSegBps B i = _
    unfold aghSegBps
    split <;> omega
  · intro i _
    show aghSegBps B i = _ ∨ aghSegBps B i = _
    unfold aghSegBps AGH_NUM_SEGMENTS
    by_cases hi : i < B % 128
    · right
      simp only [hi, if_pos]
      omega
    · left
      simp only [hi, if_neg, not_false_iff]
      omega
  · show (∑ i ∈ Finset.range AGH_NUM_SEGMENTS, aghSegBps B i) = B
    unfold aghSegBps
    rw [Finset.sum_add_distrib, Finset.sum_const, Finset.card_range, sum_ite_lt, smul_eq_mul]
    unfold AGH_NUM_SEGMENTS
    omega

/-- Concrete instance of the C6 distribution at bucket hint 300 (300 = 2·128 +
44, so the first 44 segments get 3 buckets and the rest get 2). -/
theorem agh_exact_distribution_witness :
    ((AGHTable.new Nat Nat 300 8).segments 3).bps =
      (if 3 < 300 % AGH_NUM_SEGMENTS then 300 / AGH_NUM_SEGMENTS + 1
        else 300 / AGH_NUM_SEGMENTS) ∧
    ((AGHTable.new Nat Nat 300 8).segments 200).bps = 300 / AGH_NUM_SEGMENTS ∨
      ((AGHTable.new Nat Nat 300 8).segments 200).bps =
        (300 + (AGH_NUM_SEGMENTS - 1)) / AGH_NUM_SEGMENTS := by
  exact Or.inl ⟨(agh_exact_distribution Nat Nat 300 8).1 3 (by decide),
    by decide⟩

/- The SegmentBasedHashTable constructor (segment_based.h). -/

/-- One `SegmentBasedHashTable::Segment`: its bucket count and bucket chains. -/
structure SBSeg (K V : Type) where
  buckets_per_segment : Nat
  buckets : Nat → List (K × V)

/-- `SegmentBasedHashTable` state: the segment list, the remembered
`total_buckets` request and the `element_count` counter. -/
structure SBTable (K V : Type) where
  segments : List (SBSeg K V)
  total_buckets : Nat
  elementCount : Nat

/-- The constructor's buckets-per-segment computation:
`bucket_count / NUM_SEGMENTS == 0 ? 1 : bucket_count / NUM_SEGMENTS`. -/
def sb_buckets_per_segment (B : Nat) : Nat :=
  if B / SB_NUM_SEGMENTS = 0 then 1 else B / SB_NUM_SEGMENTS

/-- The `SegmentBasedHashTable` constructor: push `NUM_SEGMENTS` fresh segments,
each with `buckets_per_segment` empty buckets. -/
def SBTable.new (K V : Type) (B : Nat) : SBTable K V :=
  ⟨List.replicate SB_NUM_SEGMENTS ⟨sb_buckets_per_segment B, fun _ => []⟩, B, 0⟩

/-- The number of buckets actually allocated over all segments. -/
def sbEffectiveBuckets (t : SBTable K V) : Nat :=
  (t.segments.map (fun s => s.buckets_per_segment)).sum

theorem sb_buckets_per_segment_eq_max (B : Nat) :
    sb_buckets_per_segment B = max 1 (B / 16) := by
  unfold sb_buckets_per_segment SB_NUM_SEGMENTS
  split <;> omega

/-- Claim C10: `SegmentBasedHashTable(B)` creates exactly 16 segments with
`max(1, B / 16)` buckets each, so the effective bucket count is
`16 * max(1, B / 16)`; whenever `B > 16` and 16 does not divide `B` this is
strictly below the requested `B`; and every hash still routes to exactly one
in-range (segment, bucket) slot. -/
theorem sb_constructor_shape (K V : Type) (B : Nat) :
    (SBTable.new K V B).segments.length = 16 ∧
    (∀ s ∈ (SBTable.new K V B).segments, s.buckets_per_segment = max 1 (B / 16)) ∧
    sbEffectiveBuckets (SBTable.new K V B) = 16 * max 1 (B / 16) ∧
    (16 < B → ¬ (16 ∣ B) → sbEffectiveBuckets (SBTable.new K V B) < B) ∧
    (∀ h, sbSegIdx h < 16 ∧ sbBucketIdx h (sb_buckets_per_segment B) < sb_buckets_per_segment B) := by
  have heff : sbEffectiveBuckets (SBTable.new K V B) = 16 * max 1 (B / 16) := by
    show ((List.replicate SB_NUM_SEGMENTS
        (⟨sb_buckets_per_segment B, fun _ => []⟩ : SBSeg K V)).map
          (fun s => s.buckets_per_segment)).sum = _
    rw [List.map_replicate, List.sum_replicate, smul_eq_mul, sb_buckets_per_segment_eq_max]
    rfl
  refine ⟨rfl, ?_, heff, ?_, ?_⟩
  · intro s hs
    have := List.eq_of_mem_replicate hs
    rw [this, ← sb_buckets_per_segment_eq_max]
  · intro hB hdvd
    rw [heff]
    have hmod : ¬ B % 16 = 0 := fun hc => hdvd (Nat.dvd_iff_mod_eq_zero.mpr hc)
    omega
  · intro h
    constructor
    · exact Nat.mod_lt h (by decide)
    · have hpos : 0 < sb_buckets_per_segment B := by
        unfold sb_buckets_per_segment SB_NUM_SEGMENTS
        split <;> omega
      exact Nat.mod_lt _ hpos

/-- Concrete instance of the C10 shape at bucket hint 100: each segment gets
6 buckets, the effective count 96 is below the requested 100, and key hash 37
routes to segment 5, bucket 2 of 6. -/
theorem sb_constructor_shape_witness :
    (⟨sb_buckets_per_segment 100, fun _ => []⟩ : SBSeg Nat Nat).buckets_per_segment =
      max 1 (100 / 16) ∧
    sbEffectiveBuckets (SBTable.new Nat Nat 100) < 100 ∧
    sbSegIdx 37 < 16 := by
  refine ⟨(sb_constructor_shape Nat Nat 100).2.1 _ ?_,
    (sb_constructor_shape Nat Nat 100).2.2.2.1 (by decide) (by decide),
    ((sb_constructor_shape Nat Nat 100).2.2.2.2 37).1⟩
  show _ ∈ List.replicate SB_NUM_SEGMENTS _
  exact List.mem_replicate.2 ⟨by decide, rfl⟩

/- The benchmark baseline caches (bench_matrix_simple.cpp, bench_matrix.cpp).
Wall-clock timing itself is outside the embedding; what is verified is which
configuration's sequential run each datapoint's speedup denominator comes from.
The timing of the one-thread sequential run for a configuration is an abstract
oracle `baseTime`. -/

/-- A benchmark configuration as keyed by `BaselineKey` of
bench_matrix_simple.cpp: scaling mode ("strong"?), read ratio (`mix`),
distribution ("skew"?), bucket count, hot-set probability (`pHot`) and total
operation count.  The two double-typed fields are represented exactly as
rationals; the harness only copies and compares these literals, so the
representation distinguishes exactly the same configurations. -/
structure BKey where
  mode_strong : Bool
  mix : Rat
  dist_skew : Bool
  buckets : Nat
  pHot : Rat
  ops : Nat
deriving DecidableEq

/-- Association-list model of the `std::map<BaselineKey,double>` cache. -/
def lookupBaseline (k : BKey) : List (BKey × Rat) → Option Rat
  | [] => none
  | p :: rest => if p.1 = k then some p.2 else lookupBaseline k rest

/-- `get_baseline` of bench_matrix_simple.cpp, over the timing oracle
`baseTime k` (the wall time of `run_workload<SequentialHashTable<int,int>>(1,
k.ops, k.read_ratio, k.dist == "skew", k.buckets, k.p_hot, hot_frac)`): a cache
hit returns the stored time unchanged, a miss runs the sequential workload once
and stores its time. -/
def get_baseline (baseTime : BKey → Rat) (k : BKey) (cache : List (BKey × Rat)) :
    Rat × List (BKey × Rat) :=
  match lookupBaseline k cache with
  | some t => (t, cache)
  | none => (baseTime k, (k, baseTime k) :: cache)

/-- Thread a sequence of baseline requests through the cache (inlining the two
branches of `get_baseline`), returning each datapoint's baseline and the number
of sequential baseline runs performed. -/
def processBaselineRequests (baseTime : BKey → Rat) :
    List BKey → List (BKey × Rat) → List Rat × Nat
  | [], _ => ([], 0)
  | k :: ks, cache =>
    match lookupBaseline k cache with
    | some t =>
      let r := processBaselineRequests baseTime ks cache
      (t :: r.1, r.2)
    | none =>
      let r := processBaselineRequests baseTime ks ((k, baseTime k) :: cache)
      (baseTime k :: r.1, r.2 + 1)

theorem processBaselineRequests_cons (baseTime : BKey → Rat) (k : BKey) (ks : List BKey)
    (cache : List (BKey × Rat)) :
    (processBaselineRequests baseTime (k :: ks) cache).1 =
      (get_baseline baseTime k cache).1 ::
        (processBaselineRequests baseTime ks (get_baseline baseTime k cache).2).1 := by
  cases h : lookupBaseline k cache <;>
    simp only [processBaselineRequests, get_baseline, h]

/-- A cache state is faithful when every stored time is the sequential time of
its own key. -/
def cacheFaithful (baseTime : BKey → Rat) (cache : List (BKey × Rat)) : Prop :=
  ∀ k t, lookupBaseline k cache = some t → t = baseTime k

theorem process_responses (baseTime : BKey → Rat) :
    ∀ (ks : List BKey) (cache : List (BKey × Rat)), cacheFaithful baseTime cache →
      (processBaselineRequests baseTime ks cache).1 = ks.map baseTime := by
  intro ks
  induction ks with
  | nil => intro cache _; rfl
  | cons k ks ih =>
    intro cache hc
    cases h : lookupBaseline k cache with
    | some t =>
      simp only [processBaselineRequests, h, List.map_cons]
      rw [ih cache hc, hc k t h]
    | none =>
      simp only [processBaselineRequests, h, List.map_cons]
      rw [ih ((k, baseTime k) :: cache) ?_]
      intro k2 t2 h2
      rw [lookupBaseline] at h2
      by_cases he : k = k2
      · subst he
        rw [if_pos (show (k, baseTime k).1 = k from rfl)] at h2
        exact (Option.some.inj h2).symm
      · rw [if_neg (show ¬ (k, baseTime k).1 = k2 from he)] at h2
        exact hc k2 t2 h2

theorem card_insert_eq_erase (a : BKey) (s : Finset BKey) :
    (insert a s).card = (s.erase a).card + 1 := by
  have h1 : insert a s = insert a (s.erase a) := by
    ext x
    simp only [Finset.mem_insert, Finset.mem_erase]
    constructor
    · rintro (rfl | hx)
      · exact Or.inl rfl
      · by_cases hxa : x = a
        · exact Or.inl hxa
        · exact Or.inr ⟨hxa, hx⟩
    · rintro (rfl | ⟨_, hx⟩)
      · exact Or.inl rfl
      · exact Or.inr hx
  rw [h1, Finset.card_insert_of_not_mem (Finset.not_mem_erase a s)]

theorem process_count (baseTime : BKey → Rat) :
    ∀ (ks : List BKey) (cache : List (BKey × Rat)),
      (processBaselineRequests baseTime ks cache).2 =
        ((ks.filter (fun k => (lookupBaseline k cache).isNone)).toFinset).card := by
  intro ks
  induction ks with
  | nil => intro cache; rfl
  | cons k ks ih =>
    intro cache
    cases h : lookupBaseline k cache with
    | some t =>
      simp only [processBaselineRequests, h, List.filter_cons, Option.isNone_some,
        Bool.false_eq_true, if_neg, not_false_iff]
      exact ih cache
    | none =>
      simp only [processBaselineRequests, h, List.filter_cons, Option.isNone_none, if_pos]
      rw [ih ((k, baseTime k) :: cache)]
      have hset : ((ks.filter
            (fun x => (lookupBaseline x ((k, baseTime k) :: cache)).isNone)).toFinset) =
          ((ks.filter (fun x => (lookupBaseline x cache).isNone)).toFinset).erase k := by
        ext x
        simp only [List.mem_toFinset, List.mem_filter, Finset.mem_erase, lookupBaseline]
        by_cases hx : x = k
        · subst hx
          simp
        · have : ¬ ((k, baseTime k).1 = x) := fun hc => hx (hc.symm)
          simp only [this, if_neg, not_false_iff]
          constructor
          · rintro ⟨hm, hn⟩
            exact ⟨hx, hm, hn⟩
          · rintro ⟨_, hm, hn⟩
            exact ⟨hm, hn⟩
      rw [hset, List.toFinset_cons, card_insert_eq_erase]

/-- The global baseline run of bench_matrix.cpp:
`run_workload<SequentialHashTable<int,int>>(1, strong_ops, 0.8, false, 16384)`
taken once before any sweep — read ratio 0.8, uniform, 16384 buckets,
2,000,000 ops (the strong-scaling op count). -/
def benchMatrixGlobalKey : BKey :=
  ⟨true, (0.8 : Rat), false, 16384, 0, 2000000⟩

/-- The configuration whose sequential time bench_matrix.cpp divides by for a
datapoint with configuration `c`: every row's speedup is
`seq_baseline / time` with the single global baseline, independent of `c`. -/
def benchMatrixRowBaselineKey (c : BKey) : BKey :=
  benchMatrixGlobalKey

/-- The configurations of the datapoints bench_matrix.cpp emits, in emission
order: the strong sweeps then the weak sweeps, four implementations each, then
read mix, bucket count, p_hot, thread count, and uniform before skew; uniform
rows record p_hot 0, weak-scaling rows use 250000 ops per thread. -/
def benchMatrixConfigs : List BKey :=
  [true, false].bind fun strong =>
    (List.range 4).bind fun _ =>
      [(0.8 : Rat), 0.5].bind fun mix =>
        [8192, 16384, 65536].bind fun b =>
          [(0.7 : Rat), 0.9, 0.99].bind fun ph =>
            [1, 2, 4, 8, 16].bind fun T =>
          [false, true].map fun skew =>
            ⟨strong, mix, skew, b, if skew then ph else 0,
              if strong then 2000000 else 250000 * T⟩

/-- Claim C8, counterexample: the very first datapoint bench_matrix.cpp emits
has configuration (strong, read ratio 0.8, uniform, 8192 buckets, 2,000,000
ops), but its speedup is computed from the single global baseline, which was
measured with 16384 buckets — a different configuration. -/
theorem baseline_cache_counterexample :
    benchMatrixConfigs.head? = some ⟨true, (0.8 : Rat), false, 8192, 0, 2000000⟩ ∧
    benchMatrixRowBaselineKey ⟨true, (0.8 : Rat), false, 8192, 0, 2000000⟩ =
      benchMatrixGlobalKey ∧
    (⟨true, (0.8 : Rat), false, 8192, 0, 2000000⟩ : BKey) ≠ benchMatrixGlobalKey := by
  refine ⟨rfl, rfl, ?_⟩
  intro hc
  have : (8192 : Nat) = 16384 := congrArg BKey.buckets hc
  omega

/-- Claim C8, amended: bench_matrix_simple.cpp does cache one sequential
baseline per configuration — for any request sequence starting from the empty
cache, every datapoint receives the sequential time of exactly its own
configuration, and the number of one-thread sequential runs equals the number of
distinct configurations requested (the first request for a configuration runs
and stores, later matching requests reuse).  bench_matrix.cpp, by contrast,
computes one global sequential baseline before its sweeps and divides every
row's time by it, whatever the row's configuration. -/
theorem baseline_cache (baseTime : BKey → Rat) (ks : List BKey) (c : BKey) :
    (processBaselineRequests baseTime ks []).1 = ks.map baseTime ∧
    (processBaselineRequests baseTime ks []).2 = ks.toFinset.card ∧
    benchMatrixRowBaselineKey c = benchMatrixGlobalKey := by
  refine ⟨process_responses baseTime ks [] (fun k t h => by simp [lookupBaseline] at h), ?_, rfl⟩
  rw [process_count]
  congr 1
  congr 1
  have : (fun k => (lookupBaseline k ([] : List (BKey × Rat))).isNone) = fun _ => true := by
    funext k
    rfl
  rw [this, List.filter_true]

end CHT
